import Mathlib

/-!
Verification of the Abalone move-legality and push-resolution engine.

The definitions below are a shallow embedding of the game logic found in
`src/src/App.jsx` and the unnamed source file of the repository: the fixed
61-cell board topology, the arithmetic-sequence line test used while building
a selection, the move enumerator (`getPossibleMoves` and the identical `moves`
computation of `App.jsx`), and the two move-application routines found in the
repository (`executeMove` from `App.jsx`, which interleaves deletion and
relocation of pushed pieces, and `makeMove` from the unnamed file, which first
deletes all pushed pieces and then relocates them).

JavaScript objects keyed by cell number are embedded as association lists
(`Board`); `delete b[c]` is `delKey`, `b[c] = v` is `setKey`, and reading
`b[c]` is `getKey`.  The numeric `sort((a,b) => a-b)` is embedded as an
insertion sort with `· ≤ ·`.  The `while` loop that walks the run of opponent
pieces in front of a push is embedded as the fuel-indexed `pushWalk`; the fuel
62 exceeds the number of board cells, so it never runs out before the loop
condition fails.
-/

namespace Abalone

/-- The two piece colors, `'white'` and `'black'` in the source. -/
inductive Color where
  | white
  | black
deriving DecidableEq, Repr

/-- `playerRole === 'black' ? 'white' : 'black'` — the opponent color. -/
def Color.opp : Color → Color
  | .white => .black
  | .black => .white

/-- Cells are the two-digit decimal coordinates used by the source. -/
abbrev Cell := Int

/-- The `CELLS` constant: all valid cell positions on the board. -/
def CELLS : List Cell :=
  [15,16,17,18,19, 24,25,26,27,28,29, 33,34,35,36,37,38,39,
   42,43,44,45,46,47,48,49, 51,52,53,54,55,56,57,58,59,
   61,62,63,64,65,66,67,68, 71,72,73,74,75,76,77,
   81,82,83,84,85,86, 91,92,93,94,95]

/-- `CELL_SET.has c`. -/
def inCellSet (c : Cell) : Bool := CELLS.contains c

/-- A board: the JS object mapping cell → color, as an association list. -/
abbrev Board := List (Cell × Color)

/-- Reading `board[c]`. -/
def getKey (b : Board) (c : Cell) : Option Color :=
  (b.find? (fun p => p.1 == c)).map (fun p => p.2)

/-- `delete board[c]`. -/
def delKey (b : Board) (c : Cell) : Board := b.filter (fun p => p.1 != c)

/-- `board[c] = v`. -/
def setKey (b : Board) (c : Cell) (v : Color) : Board := (c, v) :: delKey b c

/-- The `scores` object `{white, black}`. -/
structure Scores where
  white : Nat
  black : Nat
deriving DecidableEq, Repr

/-- `scores[color]`. -/
def Scores.get (s : Scores) : Color → Nat
  | .white => s.white
  | .black => s.black

/-- `scores[color] += 1`. -/
def Scores.inc (s : Scores) : Color → Scores
  | .white => { s with white := s.white + 1 }
  | .black => { s with black := s.black + 1 }

/-- The `type` tag of a move object: `'move'` or `'push'`. -/
inductive MType where
  | move
  | push
deriving DecidableEq, Repr

/-- A move object as produced by the enumerator: `{dir, cells, type, pushed, triggerCell}`. -/
structure Move where
  dir : Int
  cells : List Cell
  type : MType
  pushed : List Cell := []
  triggerCell : Cell := 0
deriving DecidableEq, Repr

/-- `[...xs].sort((a,b) => a-b)` — numeric ascending sort. -/
def sortCells (l : List Cell) : List Cell := l.insertionSort (· ≤ ·)

/-- Helper for `isArithmeticSequence`: all adjacent differences equal `d`
(the source checks `sorted[i] - sorted[i-1] === diff` for every `i ≥ 1`). -/
def constStep (d : Int) : List Int → Bool
  | a :: b :: t => (b - a == d) && constStep d (b :: t)
  | _ => true

/-- `isArithmeticSequence(cells)` from the source: length ≤ 1 is accepted;
otherwise the sorted list must have constant adjacent difference drawn
from `[1, 9, 10]`. -/
def isArithmeticSequence (cells : List Cell) : Bool :=
  if cells.length ≤ 1 then true
  else
    match sortCells cells with
    | a :: b :: t =>
      ([1, 9, 10] : List Int).contains (b - a) && constStep (b - a) (a :: b :: t)
    | _ => true

/-- The six direction offsets `[1, -1, 9, -9, 10, -10]`. -/
def directions : List Int := [1, -1, 9, -9, 10, -10]

/-- The `while (CELL_SET.has(current) && board[current] && board[current] !== playerRole)`
walk collecting the run of opponent pieces; returns the collected cells and the
final value of `current`.  Fuel-indexed; fuel 62 exceeds the cell count. -/
def pushWalk (board : Board) (player : Color) (dir : Int) : Nat → Cell → List Cell × Cell
  | 0, cur => ([], cur)
  | fuel + 1, cur =>
    if inCellSet cur then
      match getKey board cur with
      | some col =>
        if col = player then ([], cur)
        else
          let rest := pushWalk board player dir fuel (cur + dir)
          (cur :: rest.1, rest.2)
      | none => ([], cur)
    else ([], cur)

/-- The body of the `for (let dir of directions)` loop of `getPossibleMoves`
(identically, the `forEach` body of the `moves` computation in `App.jsx`):
at most one move per direction. -/
def moveForDir (board : Board) (player : Color) (selected sorted : List Cell)
    (dir : Int) : Option Move :=
  let newCells := sorted.map (fun c => c + dir)
  if ∀ c ∈ newCells, inCellSet c = true then
    if ∀ c ∈ newCells, getKey board c = none ∨ c ∈ selected then
      some { dir := dir, cells := newCells, type := .move }
    else if 1 < selected.length then
      match sorted with
      | a :: b :: _ =>
        let diff := b - a
        if dir = diff ∨ dir = -diff then
          let front := if 0 < dir then sorted.getLastD 0 else sorted.headD 0
          let walk := pushWalk board player dir 62 (front + dir)
          if 0 < walk.1.length ∧ walk.1.length < selected.length ∧
              (¬ inCellSet walk.2 = true ∨ getKey board walk.2 = none) then
            some { dir := dir, cells := newCells, type := .push,
                   pushed := walk.1, triggerCell := front }
          else none
        else none
      | _ => none
    else none
  else none

/-- `getPossibleMoves()` (and the `moves` computation of `App.jsx`): enumerate
candidate moves of the current selection over the six directions. -/
def getPossibleMoves (board : Board) (player : Color) (selected : List Cell) : List Move :=
  if selected.length = 0 then []
  else
    let sorted := sortCells selected
    directions.filterMap (moveForDir board player selected sorted)

/-- The state written back after applying a move. -/
structure NextState where
  board : Board
  scores : Scores
  winner : Option Color
  currentTurn : Color
deriving DecidableEq, Repr

/-- `executeMove(m)` from `App.jsx` (first component): for a push it iterates
over `m.pushed`, and *inside the same iteration* deletes the pushed cell and
then writes the opponent color at `c + m.dir` (or increments the mover's
score when that target is off-board); then it clears the selection cells and
writes the mover's color at every `m.cells` cell.  The winner is recomputed
from the new scores and the turn set to the opponent. -/
def executeMove (board : Board) (scores : Scores) (player : Color)
    (selected : List Cell) (m : Move) : NextState :=
  let opp := player.opp
  let bs : Board × Scores :=
    if m.type = .push then
      m.pushed.foldl (fun (p : Board × Scores) c =>
        let b1 := delKey p.1 c
        if inCellSet (c + m.dir) then (setKey b1 (c + m.dir) opp, p.2)
        else (b1, p.2.inc player)) (board, scores)
    else (board, scores)
  let b2 := selected.foldl delKey bs.1
  let b3 := m.cells.foldl (fun b c => setKey b c player) b2
  let win := if 6 ≤ bs.2.white then some Color.white
             else if 6 ≤ bs.2.black then some Color.black
             else none
  { board := b3, scores := bs.2, winner := win, currentTurn := opp }

/-- `makeMove(move)` from the unnamed source file: for a push it first deletes
*all* pushed cells, and then, in a second pass, writes the opponent color at
each `c + move.dir` that is a valid cell (incrementing the mover's score for
each one that is off-board); then it clears the selection cells and writes the
mover's color at every `move.cells` cell.  The turn is flipped from the stored
`currentTurn`. -/
def makeMove (board : Board) (scores : Scores) (player : Color)
    (currentTurn : Color) (selected : List Cell) (m : Move) : NextState :=
  let opp := player.opp
  let bs : Board × Scores :=
    if m.type = .push then
      let b1 := m.pushed.foldl delKey board
      m.pushed.foldl (fun (p : Board × Scores) c =>
        let target := c + m.dir
        if inCellSet target then (setKey p.1 target opp, p.2)
        else (p.1, p.2.inc player)) (b1, scores)
    else (board, scores)
  let b2 := selected.foldl delKey bs.1
  let b3 := m.cells.foldl (fun b c => setKey b c player) b2
  let win := if 6 ≤ bs.2.white then some Color.white
             else if 6 ≤ bs.2.black then some Color.black
             else none
  { board := b3, scores := bs.2, winner := win,
    currentTurn := if currentTurn = .black then .white else .black }

/-- `handleCellClick(cell)` from the unnamed source file, restricted to its
selection transition (after the winner/turn guard): toggling removes; a click
on one's own color starts a selection, extends it when it has fewer than 3
members and the enlarged sorted set passes the line test, and otherwise (full
selection or failed line test) only sets a message, leaving the selection
unchanged. -/
def handleCellClick (board : Board) (player : Color) (selected : List Cell)
    (cell : Cell) : List Cell :=
  if cell ∈ selected then selected.filter (fun c => c != cell)
  else if getKey board cell = some player then
    if selected.length = 0 then [cell]
    else if selected.length < 3 then
      let sortedPlus := sortCells (selected ++ [cell])
      if isArithmeticSequence sortedPlus then sortedPlus else selected
    else selected
  else selected

/-- The inline `onClick` selection branch of `App.jsx` (first component, the
expression at the board buttons): a click on one's own color toggles a
selected cell off, extends the selection when it has fewer than 3 members and
the line test passes, and otherwise *resets* the selection to the clicked
cell alone. -/
def appCellClick (board : Board) (player : Color) (selected : List Cell)
    (cell : Cell) : List Cell :=
  if getKey board cell = some player then
    if cell ∈ selected then selected.filter (fun c => c != cell)
    else if selected.length < 3 ∧ isArithmeticSequence (selected ++ [cell]) then
      selected ++ [cell]
    else [cell]
  else selected

/-- `getNeighbors(cell)` from the unnamed source file: the six offset
candidates filtered to valid cells. -/
def getNeighbors (cell : Cell) : List Cell :=
  [cell - 1, cell + 1, cell - 9, cell + 9, cell - 10, cell + 10].filter
    (fun c => inCellSet c)

/-- `standardRows` from the source: the nine display rows of the board. -/
def standardRows : List (List Cell) :=
  [[15,16,17,18,19],[24,25,26,27,28,29],[33,34,35,36,37,38,39],
   [42,43,44,45,46,47,48,49],[51,52,53,54,55,56,57,58,59],[61,62,63,64,65,66,67,68],
   [71,72,73,74,75,76,77],[81,82,83,84,85,86],[91,92,93,94,95]]

/-- Modelled from the spec: the six corner cells of the hexagon — the two ends
of the first row, of the widest (middle) row, and of the last row. -/
def cornerCells : List Cell := [15, 19, 51, 59, 91, 95]

/-- Modelled from the spec: a boundary cell is one lying on the first or last
row or at either end of its row. -/
def isBoundary (c : Cell) : Bool :=
  (standardRows.headD []).contains c || (standardRows.getLastD []).contains c ||
    standardRows.any (fun r => r.headD 0 == c || r.getLastD 0 == c)

/-- Spec-side line property: the sorted coordinates of the selection form a
constant-step arithmetic sequence with step in {1, 9, 10}. -/
def IsLineSel (sel : List Cell) : Prop :=
  ∃ d : Int, (d = 1 ∨ d = 9 ∨ d = 10) ∧
    (sortCells sel).Chain' (fun a b => b - a = d)

/-- Selections reachable by the selection-building rule of `handleCellClick`
using extensions only: start with a single cell of the player's color; each
extension appends a distinct cell of the player's color to a selection of
fewer than 3 cells, re-sorts, and is accepted only if the sorted result
passes `isArithmeticSequence`. -/
inductive Reaches (board : Board) (player : Color) : List Cell → Prop where
  | start (c : Cell) (hc : getKey board c = some player) :
      Reaches board player [c]
  | extend (sel : List Cell) (c : Cell)
      (hr : Reaches board player sel)
      (hnotin : c ∉ sel)
      (hc : getKey board c = some player)
      (hlen : sel.length < 3)
      (hline : isArithmeticSequence (sortCells (sel ++ [c])) = true) :
      Reaches board player (sortCells (sel ++ [c]))

/-! ### Helper lemmas about the move enumerator -/

lemma mem_moves {board : Board} {player : Color} {selected : List Cell} {m : Move}
    (h : m ∈ getPossibleMoves board player selected) :
    ∃ dir, dir ∈ directions ∧
      moveForDir board player selected (sortCells selected) dir = some m := by
  unfold getPossibleMoves at h
  split at h
  · simp at h
  · exact List.mem_filterMap.mp h

lemma moveForDir_cells {board : Board} {player : Color} {selected sorted : List Cell}
    {dir : Int} {m : Move}
    (h : moveForDir board player selected sorted dir = some m) :
    m.dir = dir ∧ m.cells = sorted.map (fun c => c + dir) ∧
      ∀ c ∈ m.cells, inCellSet c = true := by
  obtain _ | ⟨a, _ | ⟨b, t⟩⟩ := sorted <;> simp only [moveForDir] at h
  · split at h
    case isTrue hvalid =>
      split at h
      · cases h; exact ⟨rfl, rfl, hvalid⟩
      · split at h <;> cases h
    case isFalse => cases h
  · split at h
    case isTrue hvalid =>
      split at h
      · cases h; exact ⟨rfl, rfl, hvalid⟩
      · split at h <;> cases h
    case isFalse => cases h
  · split at h
    case isTrue hvalid =>
      split at h
      · cases h; exact ⟨rfl, rfl, hvalid⟩
      · split at h
        case isTrue =>
          split at h
          case isTrue =>
            split at h <;> split at h <;>
              first
              | (cases h; exact ⟨rfl, rfl, hvalid⟩)
              | cases h
          case isFalse => cases h
        case isFalse => cases h
    case isFalse => cases h

lemma moveForDir_move {board : Board} {player : Color} {selected sorted : List Cell}
    {dir : Int} {m : Move}
    (h : moveForDir board player selected sorted dir = some m)
    (ht : m.type = .move) :
    ∀ c ∈ m.cells, getKey board c = none ∨ c ∈ selected := by
  obtain _ | ⟨a, _ | ⟨b, t⟩⟩ := sorted <;> simp only [moveForDir] at h
  · split at h
    case isTrue =>
      split at h
      case isTrue hempty => cases h; exact hempty
      case isFalse => split at h <;> cases h
    case isFalse => cases h
  · split at h
    case isTrue =>
      split at h
      case isTrue hempty => cases h; exact hempty
      case isFalse => split at h <;> cases h
    case isFalse => cases h
  · split at h
    case isTrue =>
      split at h
      case isTrue hempty => cases h; exact hempty
      case isFalse =>
        split at h
        case isTrue =>
          split at h
          case isTrue =>
            split at h <;> split at h <;>
              first
              | (cases h; cases ht)
              | cases h
          case isFalse => cases h
        case isFalse => cases h
    case isFalse => cases h

lemma moveForDir_push {board : Board} {player : Color} {selected sorted : List Cell}
    {dir : Int} {m : Move}
    (h : moveForDir board player selected sorted dir = some m)
    (ht : m.type = .push) :
    1 < selected.length ∧
      (∃ a b t, sorted = a :: b :: t ∧ (dir = b - a ∨ dir = -(b - a))) ∧
      m.triggerCell = (if 0 < dir then sorted.getLastD 0 else sorted.headD 0) ∧
      m.pushed = (pushWalk board player dir 62 (m.triggerCell + dir)).1 ∧
      0 < m.pushed.length ∧ m.pushed.length < selected.length ∧
      (¬ inCellSet (pushWalk board player dir 62 (m.triggerCell + dir)).2 = true ∨
        getKey board (pushWalk board player dir 62 (m.triggerCell + dir)).2 = none) := by
  obtain _ | ⟨a, _ | ⟨b, t⟩⟩ := sorted <;> simp only [moveForDir] at h
  · split at h
    case isTrue =>
      split at h
      · cases h; cases ht
      · split at h <;> cases h
    case isFalse => cases h
  · split at h
    case isTrue =>
      split at h
      · cases h; cases ht
      · split at h <;> cases h
    case isFalse => cases h
  · split at h
    case isTrue =>
      split at h
      · cases h; cases ht
      · split at h
        case isTrue hlen =>
          split at h
          case isTrue hdiff =>
            split at h
            case isTrue h0 =>
              split at h
              case isTrue hguard =>
                cases h
                refine ⟨hlen, ⟨a, b, t, rfl, hdiff⟩, ?_, rfl,
                  hguard.1, hguard.2.1, hguard.2.2⟩
                rw [if_pos h0]
              case isFalse => cases h
            case isFalse h0 =>
              split at h
              case isTrue hguard =>
                cases h
                refine ⟨hlen, ⟨a, b, t, rfl, hdiff⟩, ?_, rfl,
                  hguard.1, hguard.2.1, hguard.2.2⟩
                rw [if_neg h0]
              case isFalse => cases h
          case isFalse => cases h
        case isFalse => cases h
    case isFalse => cases h

/-! ### Claim theorems: push outnumbering, simple-move targets, win, turn -/

/-- C1: every push move returned by the move enumerator has a pushed opponent
run strictly smaller than the selection: `pushed.length < selection.length`. -/
theorem push_outnumbered (board : Board) (player : Color) (selected : List Cell)
    (m : Move) (hm : m ∈ getPossibleMoves board player selected)
    (ht : m.type = .push) :
    m.pushed.length < selected.length := by
  obtain ⟨dir, _, h⟩ := mem_moves hm
  exact (moveForDir_push h ht).2.2.2.2.2.1

/-- C1 witness: a concrete push move of a 2-piece black selection against one
white piece. -/
theorem push_outnumbered_witness :
    ({ dir := 1, cells := [63,64], type := .push, pushed := [64],
       triggerCell := 63 } : Move) ∈
      getPossibleMoves [(62, .black), (63, .black), (64, .white)] .black [62,63] ∧
    ({ dir := 1, cells := [63,64], type := .push, pushed := [64],
       triggerCell := 63 } : Move).pushed.length < ([62, 63] : List Cell).length :=
  ⟨by decide,
    push_outnumbered [(62, .black), (63, .black), (64, .white)] .black [62,63]
      { dir := 1, cells := [63,64], type := .push, pushed := [64], triggerCell := 63 }
      (by decide) rfl⟩

/-- C4: every simple move returned by the move enumerator has all target cells
inside the valid-cell set, and each target is, on the pre-move board, either
empty or a member of the original selection. -/
theorem simple_move_targets (board : Board) (player : Color) (selected : List Cell)
    (m : Move) (hm : m ∈ getPossibleMoves board player selected)
    (ht : m.type = .move) :
    ∀ c ∈ m.cells, inCellSet c = true ∧ (getKey board c = none ∨ c ∈ selected) := by
  obtain ⟨dir, _, h⟩ := mem_moves hm
  intro c hc
  exact ⟨(moveForDir_cells h).2.2 c hc, moveForDir_move h ht c hc⟩

/-- C4 witness: the sideways simple move of the selection `[54,55,56]`. -/
theorem simple_move_targets_witness :
    ({ dir := -1, cells := [53,54,55], type := .move } : Move) ∈
      getPossibleMoves [(54, .black), (55, .black), (56, .black)] .black [54,55,56] ∧
    inCellSet 53 = true ∧
      (getKey [(54, .black), (55, .black), (56, .black)] 53 = none ∨
        (53 : Cell) ∈ ([54,55,56] : List Cell)) :=
  ⟨by decide,
    simple_move_targets [(54, .black), (55, .black), (56, .black)] .black [54,55,56]
      { dir := -1, cells := [53,54,55], type := .move } (by decide) rfl 53 (by decide)⟩

lemma winner_eq_iff (s : Scores) :
    ((if 6 ≤ s.white then some Color.white else if 6 ≤ s.black then some Color.black
        else none) = some Color.white ↔ 6 ≤ s.white) ∧
    ((if 6 ≤ s.white then some Color.white else if 6 ≤ s.black then some Color.black
        else none) = some Color.black ↔ (s.white < 6 ∧ 6 ≤ s.black)) ∧
    ((if 6 ≤ s.white then some Color.white else if 6 ≤ s.black then some Color.black
        else none) = none ↔ (s.white < 6 ∧ s.black < 6)) := by
  split_ifs with h1 h2 <;> refine ⟨?_, ?_, ?_⟩ <;> simp <;> omega

/-- C6: after applying a move with `executeMove`, the winner field is `white`
iff white's score is at least 6, is `black` iff white's is below 6 and black's
is at least 6, and is absent iff both are below 6 (white's threshold is
checked first). -/
theorem winner_threshold (board : Board) (scores : Scores) (player : Color)
    (selected : List Cell) (m : Move) :
    ((executeMove board scores player selected m).winner = some Color.white ↔
      6 ≤ (executeMove board scores player selected m).scores.white) ∧
    ((executeMove board scores player selected m).winner = some Color.black ↔
      ((executeMove board scores player selected m).scores.white < 6 ∧
        6 ≤ (executeMove board scores player selected m).scores.black)) ∧
    ((executeMove board scores player selected m).winner = none ↔
      ((executeMove board scores player selected m).scores.white < 6 ∧
        (executeMove board scores player selected m).scores.black < 6)) :=
  winner_eq_iff (executeMove board scores player selected m).scores

/-- C7 counterexample: `makeMove` (unnamed file) flips the *stored*
`currentTurn`, not the mover's color.  When black applies an enumerated move
while the stored turn is white — reachable because `handleCellClick`'s turn
guard `gameStarted && currentTurn !== playerRole` is bypassed before
`gameStarted` — the post-move turn is black, the mover's own color, not the
mover's opposite. -/
theorem turn_alternation_counterexample :
    (({ dir := 9, cells := [71, 72], type := .move } : Move) ∈
      getPossibleMoves [(62, Color.black), (63, Color.black)] .black [62, 63]) ∧
    (makeMove [(62, Color.black), (63, Color.black)] ⟨0, 0⟩ .black .white [62, 63]
      { dir := 9, cells := [71, 72], type := .move }).currentTurn = Color.black ∧
    ¬ (makeMove [(62, Color.black), (63, Color.black)] ⟨0, 0⟩ .black .white [62, 63]
      { dir := 9, cells := [71, 72], type := .move }).currentTurn
        = Color.opp Color.black := by
  decide

/-- C7 (amended): `App.jsx`'s `executeMove` unconditionally sets the stored
turn to the opposite color of the player who moved (black ↔ white, winner or
not; no pass or skip).  The unnamed file's `makeMove` instead flips the
stored `currentTurn`; the result equals the mover's opposite exactly when the
move is applied on the mover's turn (`currentTurn = player`). -/
theorem turn_alternation (board : Board) (scores : Scores) (player : Color)
    (currentTurn : Color) (selected : List Cell) (m : Move) :
    (executeMove board scores player selected m).currentTurn = player.opp ∧
    (makeMove board scores player currentTurn selected m).currentTurn
      = (if currentTurn = Color.black then Color.white else Color.black) ∧
    (currentTurn = player →
      (makeMove board scores player currentTurn selected m).currentTurn
        = player.opp) ∧
    Color.opp Color.black = Color.white ∧ Color.opp Color.white = Color.black := by
  refine ⟨rfl, rfl, ?_, rfl, rfl⟩
  intro h
  subst h
  cases currentTurn <;> rfl

/-- C7 witness: black applying a move on black's turn hands the turn to
white under both appliers. -/
theorem turn_alternation_witness :
    (makeMove [(62, Color.black), (63, Color.black)] ⟨0, 0⟩ .black .black [62, 63]
      { dir := 9, cells := [71, 72], type := .move }).currentTurn
      = Color.opp Color.black :=
  (turn_alternation [(62, Color.black), (63, Color.black)] ⟨0, 0⟩ .black .black
    [62, 63] { dir := 9, cells := [71, 72], type := .move }).2.2.1 rfl

/-! ### Divergence of `executeMove` from the specified push resolution (C2) -/

/-- C2 (code-bug evidence): on the enumerated push of black `[54,55,56]`
against the white run `57,58` (far cell `59` empty and valid), `App.jsx`'s
`executeMove` leaves cell `58` empty — the piece pushed from `57` is first
relocated to `58` and then deleted by the next iteration of the same loop —
whereas the repository's own `makeMove` (unnamed file) writes the opponent
color at `58` exactly as the claim states. -/
theorem executeMove_vanishes_pushed_piece :
    (({ dir := 1, cells := [55,56,57], type := .push, pushed := [57,58],
        triggerCell := 56 } : Move) ∈
      getPossibleMoves
        [(54, .black), (55, .black), (56, .black), (57, .white), (58, .white)]
        .black [54,55,56]) ∧
    inCellSet (57 + 1) = true ∧
    getKey (executeMove
        [(54, .black), (55, .black), (56, .black), (57, .white), (58, .white)]
        ⟨0, 0⟩ .black [54,55,56]
        { dir := 1, cells := [55,56,57], type := .push, pushed := [57,58],
          triggerCell := 56 }).board 58 = none ∧
    getKey (makeMove
        [(54, .black), (55, .black), (56, .black), (57, .white), (58, .white)]
        ⟨0, 0⟩ .black .black [54,55,56]
        { dir := 1, cells := [55,56,57], type := .push, pushed := [57,58],
          triggerCell := 56 }).board 58 = some .white := by decide

/-! ### Push scoring (C3) -/

/-- C3 counterexample: for the enumerated push of black `[55,56,57]` against
the white run `58,59` with the far cell `60` off-board, `pushed.length = 2`
but applying the move increases the mover's score by exactly 1, not by
`pushed.length`. -/
theorem push_off_board_score_counterexample :
    (({ dir := 1, cells := [56,57,58], type := .push, pushed := [58,59],
        triggerCell := 57 } : Move) ∈
      getPossibleMoves
        [(55, .black), (56, .black), (57, .black), (58, .white), (59, .white)]
        .black [55,56,57]) ∧
    inCellSet (([58, 59] : List Cell).getLastD 0 + 1) = false ∧
    ([58, 59] : List Cell).length = 2 ∧
    (executeMove
        [(55, .black), (56, .black), (57, .black), (58, .white), (59, .white)]
        ⟨0, 0⟩ .black [55,56,57]
        { dir := 1, cells := [56,57,58], type := .push, pushed := [58,59],
          triggerCell := 57 }).scores.get .black = 1 ∧
    ¬ (executeMove
        [(55, .black), (56, .black), (57, .black), (58, .white), (59, .white)]
        ⟨0, 0⟩ .black [55,56,57]
        { dir := 1, cells := [56,57,58], type := .push, pushed := [58,59],
          triggerCell := 57 }).scores.get .black = 0 + 2 := by decide

/-! ### Board topology (C8) -/

/-- C8 counterexample: the corner cell `15` has exactly 3 neighbors, not 2,
and in fact no cell of the board has exactly 2 neighbors. -/
theorem corner_neighbor_count_counterexample :
    (15 : Cell) ∈ cornerCells ∧
    getNeighbors 15 = [16, 24, 25] ∧
    (getNeighbors 15).length = 3 ∧
    ¬ (getNeighbors 15).length = 2 ∧
    CELLS.filter (fun c => (getNeighbors c).length == 2) = [] := by decide

/-- C8 (amended): the valid-cell set has exactly 61 distinct members arranged
in rows of lengths 5,6,7,8,9,8,7,6,5, and every cell's neighbor set under the
six offsets has between 3 and 6 members: the six corner cells have exactly 3
neighbors, the remaining boundary cells exactly 4, and interior cells
exactly 6. -/
theorem board_topology :
    CELLS.length = 61 ∧ CELLS.Nodup ∧
    standardRows.map List.length = [5, 6, 7, 8, 9, 8, 7, 6, 5] ∧
    standardRows.foldr (· ++ ·) [] = CELLS ∧
    (∀ c ∈ CELLS, 3 ≤ (getNeighbors c).length ∧ (getNeighbors c).length ≤ 6) ∧
    (∀ c ∈ cornerCells, (getNeighbors c).length = 3) ∧
    (∀ c ∈ CELLS, c ∉ cornerCells → isBoundary c = true → (getNeighbors c).length = 4) ∧
    (∀ c ∈ CELLS, isBoundary c = false → (getNeighbors c).length = 6) := by decide

/-- C8 witness: cell 24 is a non-corner boundary cell with exactly 4
neighbors. -/
theorem board_topology_witness :
    (24 : Cell) ∈ CELLS ∧ (getNeighbors 24).length = 4 :=
  ⟨by decide, board_topology.2.2.2.2.2.2.1 24 (by decide) (by decide) (by decide)⟩

/-! ### Invalid selection-extension attempts (C9) -/

/-- C9 counterexample: with black pieces at 51 and 53, selection `[51]`, a
click on 53 is an invalid extension attempt (the enlarged set `[51,53]` fails
the line test), yet the `App.jsx` inline handler changes the selection,
resetting it to `[53]` instead of leaving it `[51]`. -/
theorem app_click_reset_counterexample :
    getKey [(51, .black), (53, .black)] 53 = some .black ∧
    isArithmeticSequence ([51] ++ [53]) = false ∧
    appCellClick [(51, .black), (53, .black)] .black [51] 53 = [53] ∧
    ¬ appCellClick [(51, .black), (53, .black)] .black [51] 53 = [51] := by decide

/-- C9 (amended): invalid extension attempts are declined by both handlers,
but only `handleCellClick` (unnamed file) leaves the selection unchanged in
every invalid case — wrong-color click, selection already full, or failed
line test; the `App.jsx` inline handler leaves the selection unchanged on a
wrong-color click but resets it to the clicked cell alone when the selection
is full or the line test fails. -/
theorem invalid_extension_behavior (board : Board) (player : Color)
    (selected : List Cell) (cell : Cell) :
    (¬ getKey board cell = some player → cell ∉ selected →
      handleCellClick board player selected cell = selected) ∧
    (cell ∉ selected → 3 ≤ selected.length →
      handleCellClick board player selected cell = selected) ∧
    (cell ∉ selected → selected.length < 3 → 0 < selected.length →
      isArithmeticSequence (sortCells (selected ++ [cell])) = false →
      handleCellClick board player selected cell = selected) ∧
    (¬ getKey board cell = some player →
      appCellClick board player selected cell = selected) ∧
    (getKey board cell = some player → cell ∉ selected →
      ¬ (selected.length < 3 ∧ isArithmeticSequence (selected ++ [cell]) = true) →
      appCellClick board player selected cell = [cell]) := by
  refine ⟨?_, ?_, ?_, ?_, ?_⟩
  · intro hcol hmem
    unfold handleCellClick
    rw [if_neg hmem, if_neg hcol]
  · intro hmem hlen
    unfold handleCellClick
    rw [if_neg hmem]
    split
    · rw [if_neg (by omega : ¬ selected.length = 0),
        if_neg (by omega : ¬ selected.length < 3)]
    · rfl
  · intro hmem hlt hpos hline
    unfold handleCellClick
    rw [if_neg hmem]
    split
    · have h0 : ¬ selected.length = 0 := by omega
      simp [h0, hlt, hline]
    · rfl
  · intro hcol
    unfold appCellClick
    rw [if_neg hcol]
  · intro hcol hmem hfail
    unfold appCellClick
    rw [if_pos hcol, if_neg hmem, if_neg hfail]

/-! ### Board and score primitives -/

lemma getKey_cons (k : Cell) (v : Color) (b : Board) (x : Cell) :
    getKey ((k, v) :: b) x = if k = x then some v else getKey b x := by
  by_cases h : k = x
  · have hb : (k == x) = true := beq_iff_eq.mpr h
    simp [getKey, List.find?, hb, h]
  · have hb : (k == x) = false := beq_eq_false_iff_ne.mpr h
    simp [getKey, List.find?, hb, h]

lemma getKey_delKey (b : Board) (c x : Cell) :
    getKey (delKey b c) x = if x = c then none else getKey b x := by
  induction b with
  | nil => simp [getKey, delKey]
  | cons p bs ih =>
    obtain ⟨k, v⟩ := p
    by_cases h1 : k = c
    · rw [show delKey ((k, v) :: bs) c = delKey bs c by simp [delKey, h1], ih,
        getKey_cons]
      by_cases h2 : x = c
      · rw [if_pos h2, if_pos h2]
      · rw [if_neg h2, if_neg h2,
          if_neg (show ¬ k = x by rintro rfl; exact h2 h1)]
    · rw [show delKey ((k, v) :: bs) c = (k, v) :: delKey bs c by simp [delKey, h1],
        getKey_cons, getKey_cons, ih]
      by_cases h2 : k = x
      · rw [if_pos h2, if_pos h2, if_neg (fun hh : x = c => h1 (h2.trans hh))]
      · rw [if_neg h2, if_neg h2]

lemma getKey_setKey (b : Board) (c : Cell) (v : Color) (x : Cell) :
    getKey (setKey b c v) x = if x = c then some v else getKey b x := by
  rw [setKey, getKey_cons, getKey_delKey]
  by_cases h : x = c
  · simp [h]
  · have h2 : ¬ c = x := fun hh => h hh.symm
    simp [h, h2]

lemma getKey_foldl_delKey (l : List Cell) (b : Board) (x : Cell) (hx : x ∉ l) :
    getKey (l.foldl delKey b) x = getKey b x := by
  induction l generalizing b with
  | nil => rfl
  | cons c t ih =>
    rw [List.foldl_cons, ih _ (fun h => hx (List.mem_cons_of_mem c h)),
      getKey_delKey,
      if_neg (fun h : x = c => hx (by rw [h]; exact List.mem_cons_self c t))]

lemma getKey_foldl_setKey (l : List Cell) (v : Color) (b : Board) (x : Cell)
    (hx : x ∉ l) :
    getKey (l.foldl (fun bb c => setKey bb c v) b) x = getKey b x := by
  induction l generalizing b with
  | nil => rfl
  | cons c t ih =>
    rw [List.foldl_cons, ih _ (fun h => hx (List.mem_cons_of_mem c h)),
      getKey_setKey,
      if_neg (fun h : x = c => hx (by rw [h]; exact List.mem_cons_self c t))]

lemma mem_delKey {b : Board} {c : Cell} {p : Cell × Color} (hp : p ∈ delKey b c) :
    p ∈ b :=
  List.mem_of_mem_filter hp

lemma mem_setKey {b : Board} {c : Cell} {v : Color} {p : Cell × Color}
    (hp : p ∈ setKey b c v) : p = (c, v) ∨ p ∈ b := by
  rcases List.mem_cons.mp hp with h | h
  · exact Or.inl h
  · exact Or.inr (mem_delKey h)

lemma mem_foldl_delKey {l : List Cell} {b : Board} {p : Cell × Color}
    (hp : p ∈ l.foldl delKey b) : p ∈ b := by
  induction l generalizing b with
  | nil => exact hp
  | cons c t ih => exact mem_delKey (ih hp)

lemma mem_foldl_setKey {l : List Cell} {v : Color} {b : Board} {p : Cell × Color}
    (hp : p ∈ l.foldl (fun bb c => setKey bb c v) b) : p.1 ∈ l ∨ p ∈ b := by
  induction l generalizing b with
  | nil => exact Or.inr hp
  | cons c t ih =>
    rcases ih hp with h | h
    · exact Or.inl (List.mem_cons_of_mem c h)
    · rcases mem_setKey h with h2 | h2
      · exact Or.inl (h2 ▸ List.mem_cons_self c t)
      · exact Or.inr h2

lemma Scores.get_inc_self (s : Scores) (q : Color) :
    (s.inc q).get q = s.get q + 1 := by
  cases q <;> rfl

lemma Scores.get_inc_other (s : Scores) (q r : Color) (h : r ≠ q) :
    (s.inc q).get r = s.get r := by
  cases q <;> cases r <;> first | rfl | exact absurd rfl h

lemma Color.opp_ne (q : Color) : q.opp ≠ q := by
  cases q <;> simp [Color.opp]

/-! ### Structure of the push walk -/

lemma pushWalk_shape (board : Board) (pl : Color) (dir : Int) :
    ∀ (fuel : Nat) (cur : Cell),
      (pushWalk board pl dir fuel cur = ([], cur)) ∨
      (∃ fuel' ps fin, fuel = fuel' + 1 ∧ inCellSet cur = true ∧
        pushWalk board pl dir fuel' (cur + dir) = (ps, fin) ∧
        pushWalk board pl dir fuel cur = (cur :: ps, fin))
  | 0, cur => Or.inl rfl
  | fuel + 1, cur => by
    by_cases h1 : inCellSet cur
    · rcases hg : getKey board cur with _ | col
      · left
        rw [pushWalk, if_pos h1, hg]
      · by_cases h2 : col = pl
        · left
          rw [pushWalk, if_pos h1, hg]
          simp [h2]
        · right
          refine ⟨fuel, (pushWalk board pl dir fuel (cur + dir)).1,
            (pushWalk board pl dir fuel (cur + dir)).2, rfl, h1, rfl, ?_⟩
          rw [pushWalk, if_pos h1, hg]
          simp [h2]
    · left
      rw [pushWalk, if_neg h1]

lemma pushWalk_nil {board : Board} {pl : Color} {dir : Int} {fuel : Nat}
    {cur fin : Cell} (h : pushWalk board pl dir fuel cur = ([], fin)) :
    fin = cur := by
  rcases pushWalk_shape board pl dir fuel cur with h2 | ⟨fuel', ps, fin', _, _, _, h2⟩
  · have := h2.symm.trans h
    exact (congrArg Prod.snd this).symm
  · have := h2.symm.trans h
    exact absurd (congrArg Prod.fst this) (by simp)

lemma pushWalk_cons {board : Board} {pl : Color} {dir : Int} {fuel : Nat}
    {cur c fin : Cell} {ps : List Cell}
    (h : pushWalk board pl dir fuel cur = (c :: ps, fin)) :
    c = cur ∧ inCellSet cur = true ∧
      ∃ fuel', fuel = fuel' + 1 ∧
        pushWalk board pl dir fuel' (cur + dir) = (ps, fin) := by
  rcases pushWalk_shape board pl dir fuel cur with h2 | ⟨fuel', ps', fin', hf, hc, hrec, h2⟩
  · have := h2.symm.trans h
    exact absurd (congrArg Prod.fst this) (by simp)
  · have heq := h2.symm.trans h
    have h1 : cur :: ps' = c :: ps := congrArg Prod.fst heq
    have h3 : fin' = fin := congrArg Prod.snd heq
    cases h1
    exact ⟨rfl, hc, fuel', hf, h3 ▸ hrec⟩

lemma pushWalk_getLastD {board : Board} {pl : Color} {dir : Int} :
    ∀ (fuel : Nat) (cur : Cell) (ps : List Cell) (fin : Cell),
      pushWalk board pl dir fuel cur = (ps, fin) → ps ≠ [] →
      fin = ps.getLastD 0 + dir := by
  intro fuel
  induction fuel with
  | zero =>
    intro cur ps fin h hne
    have h1 : ([] : List Cell) = ps := congrArg Prod.fst h
    exact absurd h1.symm hne
  | succ fuel ih =>
    intro cur ps fin h hne
    cases ps with
    | nil => exact absurd rfl hne
    | cons c ps' =>
      obtain ⟨rfl, hc, fuel', hf, hrec⟩ := pushWalk_cons h
      have hfuel : fuel' = fuel := by omega
      subst hfuel
      cases ps' with
      | nil =>
        have h2 := pushWalk_nil hrec
        simpa [List.getLastD] using h2
      | cons c2 ps'' =>
        exact ih (c + dir) (c2 :: ps'') fin hrec (by simp)

lemma pushWalk_targets_on {board : Board} {pl : Color} {dir : Int} :
    ∀ (fuel : Nat) (cur : Cell) (ps : List Cell) (fin : Cell),
      pushWalk board pl dir fuel cur = (ps, fin) → inCellSet fin = true →
      ∀ c ∈ ps, inCellSet (c + dir) = true := by
  intro fuel
  induction fuel with
  | zero =>
    intro cur ps fin h _ c hcps
    have h1 : ([] : List Cell) = ps := congrArg Prod.fst h
    rw [← h1] at hcps
    simp at hcps
  | succ fuel ih =>
    intro cur ps fin h hfin c hcps
    cases ps with
    | nil => simp at hcps
    | cons chead ps' =>
      obtain ⟨heq, hc, fuel', hf, hrec⟩ := pushWalk_cons h
      subst heq
      have hfuel : fuel' = fuel := by omega
      subst hfuel
      rcases List.mem_cons.mp hcps with rfl | hmem
      · cases ps' with
        | nil =>
          have h2 := pushWalk_nil hrec
          rw [← h2]
          exact hfin
        | cons c2 ps'' =>
          obtain ⟨heq2, hc2, _⟩ := pushWalk_cons hrec
          exact hc2
      · exact ih (chead + dir) ps' fin hrec hfin _ hmem

lemma pushWalk_filter_off {board : Board} {pl : Color} {dir : Int} :
    ∀ (fuel : Nat) (cur : Cell) (ps : List Cell) (fin : Cell),
      pushWalk board pl dir fuel cur = (ps, fin) → inCellSet fin = false →
      ps ≠ [] →
      (ps.filter (fun c => !inCellSet (c + dir))).length = 1 := by
  intro fuel
  induction fuel with
  | zero =>
    intro cur ps fin h _ hne
    have h1 : ([] : List Cell) = ps := congrArg Prod.fst h
    exact absurd h1.symm hne
  | succ fuel ih =>
    intro cur ps fin h hfin hne
    cases ps with
    | nil => exact absurd rfl hne
    | cons c ps' =>
      obtain ⟨heq, hc, fuel', hf, hrec⟩ := pushWalk_cons h
      subst heq
      have hfuel : fuel' = fuel := by omega
      subst hfuel
      cases ps' with
      | nil =>
        have h2 := pushWalk_nil hrec
        rw [List.filter_cons, if_pos (by rw [← h2]; simp [hfin])]
        rfl
      | cons c2 ps'' =>
        obtain ⟨heq2, hc2, _⟩ := pushWalk_cons hrec
        rw [List.filter_cons, if_neg (by simp [hc2])]
        exact ih (c + dir) (c2 :: ps'') fin hrec hfin (by simp)

lemma pushWalk_le {board : Board} {pl : Color} {dir : Int} (hd : 0 < dir) :
    ∀ (fuel : Nat) (cur : Cell) (ps : List Cell) (fin : Cell),
      pushWalk board pl dir fuel cur = (ps, fin) →
      cur ≤ fin ∧ (ps ≠ [] → cur + dir ≤ fin) := by
  intro fuel
  induction fuel with
  | zero =>
    intro cur ps fin h
    have h1 : ([] : List Cell) = ps := congrArg Prod.fst h
    have h2 : cur = fin := congrArg Prod.snd h
    exact ⟨le_of_eq h2, fun hne => absurd h1.symm hne⟩
  | succ fuel ih =>
    intro cur ps fin h
    cases ps with
    | nil =>
      have h2 := pushWalk_nil h
      exact ⟨le_of_eq h2.symm, fun hne => absurd rfl hne⟩
    | cons c ps' =>
      obtain ⟨rfl, hc, fuel', hf, hrec⟩ := pushWalk_cons h
      have hfuel : fuel' = fuel := by omega
      subst hfuel
      have hih : c + dir ≤ fin := (ih (c + dir) ps' fin hrec).1
      exact ⟨le_trans (le_add_of_nonneg_right (le_of_lt hd)) hih, fun _ => hih⟩

lemma pushWalk_ge {board : Board} {pl : Color} {dir : Int} (hd : dir < 0) :
    ∀ (fuel : Nat) (cur : Cell) (ps : List Cell) (fin : Cell),
      pushWalk board pl dir fuel cur = (ps, fin) →
      fin ≤ cur ∧ (ps ≠ [] → fin ≤ cur + dir) := by
  intro fuel
  induction fuel with
  | zero =>
    intro cur ps fin h
    have h1 : ([] : List Cell) = ps := congrArg Prod.fst h
    have h2 : cur = fin := congrArg Prod.snd h
    exact ⟨le_of_eq h2.symm, fun hne => absurd h1.symm hne⟩
  | succ fuel ih =>
    intro cur ps fin h
    cases ps with
    | nil =>
      have h2 := pushWalk_nil h
      exact ⟨le_of_eq h2, fun hne => absurd rfl hne⟩
    | cons c ps' =>
      obtain ⟨rfl, hc, fuel', hf, hrec⟩ := pushWalk_cons h
      have hfuel : fuel' = fuel := by omega
      subst hfuel
      have hih : fin ≤ c + dir := (ih (c + dir) ps' fin hrec).1
      exact ⟨le_trans hih (add_le_of_nonpos_right (le_of_lt hd)), fun _ => hih⟩

/-! ### Decomposition of the push phase of `executeMove` -/

lemma pairFold_snd (player opp : Color) (dir : Int) :
    ∀ (ps : List Cell) (b : Board) (s : Scores),
      (ps.foldl (fun (p : Board × Scores) c =>
          if inCellSet (c + dir) then (setKey (delKey p.1 c) (c + dir) opp, p.2)
          else (delKey p.1 c, p.2.inc player)) (b, s)).2
        = ps.foldl (fun ss c => if inCellSet (c + dir) then ss else ss.inc player) s
  | [], b, s => rfl
  | c :: t, b, s => by
    by_cases h : inCellSet (c + dir)
    · simp only [List.foldl_cons, if_pos h]
      exact pairFold_snd player opp dir t _ _
    · simp only [List.foldl_cons, if_neg h]
      exact pairFold_snd player opp dir t _ _

lemma pairFold_fst (player opp : Color) (dir : Int) :
    ∀ (ps : List Cell) (b : Board) (s : Scores),
      (ps.foldl (fun (p : Board × Scores) c =>
          if inCellSet (c + dir) then (setKey (delKey p.1 c) (c + dir) opp, p.2)
          else (delKey p.1 c, p.2.inc player)) (b, s)).1
        = ps.foldl (fun bb c =>
            if inCellSet (c + dir) then setKey (delKey bb c) (c + dir) opp
            else delKey bb c) b
  | [], b, s => rfl
  | c :: t, b, s => by
    by_cases h : inCellSet (c + dir)
    · simp only [List.foldl_cons, if_pos h]
      exact pairFold_fst player opp dir t _ _
    · simp only [List.foldl_cons, if_neg h]
      exact pairFold_fst player opp dir t _ _

lemma scoreFold_get_self (player : Color) (dir : Int) :
    ∀ (ps : List Cell) (s : Scores),
      (ps.foldl (fun ss c => if inCellSet (c + dir) then ss else ss.inc player) s).get
          player
        = s.get player + (ps.filter (fun c => !inCellSet (c + dir))).length
  | [], s => rfl
  | c :: t, s => by
    by_cases h : inCellSet (c + dir)
    · simp only [List.foldl_cons, if_pos h, List.filter_cons,
        if_neg (show ¬ (!inCellSet (c + dir)) = true by simp [h])]
      exact scoreFold_get_self player dir t s
    · simp only [List.foldl_cons, if_neg h, List.filter_cons,
        if_pos (show (!inCellSet (c + dir)) = true by simp [h])]
      rw [scoreFold_get_self player dir t (s.inc player), Scores.get_inc_self]
      simp only [List.length_cons]
      omega

lemma scoreFold_get_other (player r : Color) (dir : Int) (hr : r ≠ player) :
    ∀ (ps : List Cell) (s : Scores),
      (ps.foldl (fun ss c => if inCellSet (c + dir) then ss else ss.inc player) s).get r
        = s.get r
  | [], s => rfl
  | c :: t, s => by
    by_cases h : inCellSet (c + dir)
    · simp only [List.foldl_cons, if_pos h]
      exact scoreFold_get_other player r dir hr t s
    · simp only [List.foldl_cons, if_neg h]
      rw [scoreFold_get_other player r dir hr t (s.inc player),
        Scores.get_inc_other s player r hr]

lemma scoreFold_id (player : Color) (dir : Int) :
    ∀ (ps : List Cell) (s : Scores), (∀ c ∈ ps, inCellSet (c + dir) = true) →
      ps.foldl (fun ss c => if inCellSet (c + dir) then ss else ss.inc player) s = s
  | [], s, _ => rfl
  | c :: t, s, hall => by
    have hc : inCellSet (c + dir) = true := hall c (List.mem_cons_self c t)
    simp only [List.foldl_cons, if_pos hc]
    exact scoreFold_id player dir t s (fun x hx => hall x (List.mem_cons_of_mem c hx))

lemma boardFold_valid (opp : Color) (dir : Int) :
    ∀ (ps : List Cell) (b0 : Board),
      (∀ p ∈ b0, inCellSet p.1 = true) →
      ∀ p ∈ ps.foldl (fun bb c =>
          if inCellSet (c + dir) then setKey (delKey bb c) (c + dir) opp
          else delKey bb c) b0, inCellSet p.1 = true
  | [], b0, hb => hb
  | c :: t, b0, hb => by
    simp only [List.foldl_cons]
    apply boardFold_valid opp dir t
    by_cases h : inCellSet (c + dir)
    · rw [if_pos h]
      intro p hp
      rcases mem_setKey hp with rfl | hp2
      · exact h
      · exact hb p (mem_delKey hp2)
    · rw [if_neg h]
      intro p hp
      exact hb p (mem_delKey hp)

lemma boardFold_get_fin {board : Board} {pl opp : Color} {dir : Int} :
    ∀ (fuel : Nat) (cur : Cell) (ps : List Cell) (fin : Cell),
      pushWalk board pl dir fuel cur = (ps, fin) → ps ≠ [] →
      inCellSet fin = true →
      ∀ b0 : Board,
        getKey (ps.foldl (fun bb c =>
            if inCellSet (c + dir) then setKey (delKey bb c) (c + dir) opp
            else delKey bb c) b0) fin = some opp := by
  intro fuel
  induction fuel with
  | zero =>
    intro cur ps fin h hne _ b0
    have h1 : ([] : List Cell) = ps := congrArg Prod.fst h
    exact absurd h1.symm hne
  | succ fuel ih =>
    intro cur ps fin h hne hfin b0
    cases ps with
    | nil => exact absurd rfl hne
    | cons c ps' =>
      obtain ⟨heq, hc, fuel', hf, hrec⟩ := pushWalk_cons h
      subst heq
      have hfuel : fuel' = fuel := by omega
      subst hfuel
      cases ps' with
      | nil =>
        have h2 := pushWalk_nil hrec
        simp only [List.foldl_cons, List.foldl_nil]
        rw [if_pos (by rw [← h2]; exact hfin), getKey_setKey, if_pos h2]
      | cons c2 ps'' =>
        simp only [List.foldl_cons]
        exact ih (c + dir) (c2 :: ps'') fin hrec (by simp) hfin _

/-! ### Unfolding `executeMove` -/

lemma executeMove_push_scores (board : Board) (scores : Scores) (player : Color)
    (selected : List Cell) (m : Move) (ht : m.type = .push) :
    (executeMove board scores player selected m).scores
      = m.pushed.foldl
          (fun ss c => if inCellSet (c + m.dir) then ss else ss.inc player) scores := by
  unfold executeMove
  dsimp only
  rw [if_pos ht]
  exact pairFold_snd player player.opp m.dir m.pushed board scores

lemma executeMove_push_board (board : Board) (scores : Scores) (player : Color)
    (selected : List Cell) (m : Move) (ht : m.type = .push) :
    (executeMove board scores player selected m).board
      = m.cells.foldl (fun bb c => setKey bb c player)
          (selected.foldl delKey
            (m.pushed.foldl (fun bb c =>
              if inCellSet (c + m.dir) then setKey (delKey bb c) (c + m.dir) player.opp
              else delKey bb c) board)) := by
  unfold executeMove
  dsimp only
  rw [if_pos ht, pairFold_fst player player.opp m.dir m.pushed board scores]

lemma executeMove_move_board (board : Board) (scores : Scores) (player : Color)
    (selected : List Cell) (m : Move) (ht : ¬ m.type = .push) :
    (executeMove board scores player selected m).board
      = m.cells.foldl (fun bb c => setKey bb c player)
          (selected.foldl delKey board) := by
  unfold executeMove
  dsimp only
  rw [if_neg ht]

/-! ### Sorted-selection facts -/

lemma getLastD_mem : ∀ (l : List Cell) (d : Cell), l ≠ [] → l.getLastD d ∈ l
  | [], d => fun h => absurd rfl h
  | [a], d => fun _ => by simp [List.getLastD]
  | a :: b :: t, d => fun _ => by
    have hmem := getLastD_mem (b :: t) a (by simp)
    exact List.mem_cons_of_mem a hmem

lemma sorted_le_getLastD :
    ∀ (l : List Cell), l.Sorted (· ≤ ·) → ∀ x ∈ l, x ≤ l.getLastD 0
  | [], _, x, hx => absurd hx (by simp)
  | a :: t, h, x, hx => by
    rcases List.mem_cons.mp hx with rfl | hxt
    · cases t with
      | nil => simp [List.getLastD]
      | cons b t2 =>
        have hmem := getLastD_mem (b :: t2) x (by simp)
        exact (List.sorted_cons.mp h).1 _ hmem
    · cases t with
      | nil => simp at hxt
      | cons b t2 =>
        exact sorted_le_getLastD (b :: t2) (List.sorted_cons.mp h).2 x hxt

lemma sorted_headD_le (l : List Cell) (h : l.Sorted (· ≤ ·)) :
    ∀ x ∈ l, l.headD 0 ≤ x := by
  cases l with
  | nil => intro x hx; simp at hx
  | cons a t =>
    intro x hx
    rcases List.mem_cons.mp hx with rfl | hxt
    · exact le_refl x
    · exact (List.sorted_cons.mp h).1 x hxt

lemma sortCells_sorted (l : List Cell) : (sortCells l).Sorted (· ≤ ·) :=
  List.sorted_insertionSort (· ≤ ·) l

lemma mem_sortCells {l : List Cell} {x : Cell} : x ∈ sortCells l ↔ x ∈ l :=
  List.mem_insertionSort (· ≤ ·)

/-! ### Selection-line invariant (C5) -/

lemma constStep_chain (d : Int) :
    ∀ l : List Int, constStep d l = true ↔ l.Chain' (fun a b => b - a = d)
  | [] => by simp [constStep]
  | [a] => by simp [constStep]
  | a :: b :: t => by
    rw [constStep, Bool.and_eq_true, List.chain'_cons, constStep_chain d (b :: t)]
    simp [beq_iff_eq]

lemma isArith_line {l : List Cell} (h : isArithmeticSequence l = true)
    (hlen : 2 ≤ l.length) :
    ∃ d : Int, (d = 1 ∨ d = 9 ∨ d = 10) ∧
      (sortCells l).Chain' (fun a b => b - a = d) := by
  unfold isArithmeticSequence at h
  rw [if_neg (by omega : ¬ l.length ≤ 1)] at h
  have hlen2 : 2 ≤ (sortCells l).length := by
    simp only [sortCells, List.length_insertionSort]
    exact hlen
  obtain ⟨a, b, t, hs⟩ : ∃ a b t, sortCells l = a :: b :: t := by
    match hx : sortCells l with
    | [] => rw [hx] at hlen2; simp at hlen2
    | [x] => rw [hx] at hlen2; simp at hlen2
    | x :: y :: t => exact ⟨x, y, t, rfl⟩
  rw [hs] at h
  rw [Bool.and_eq_true] at h
  refine ⟨b - a, ?_, ?_⟩
  · have hmem := h.1
    simp at hmem
    tauto
  · rw [hs]
    exact (constStep_chain (b - a) (a :: b :: t)).mp h.2

/-- C5: every selection of size 2 or 3 reachable by repeatedly extending a
selection through the selection-building rule (each extension accepted only
when the enlarged sorted set passes `isArithmeticSequence`) has sorted
coordinates forming a constant-step arithmetic sequence with step drawn from
{1, 9, 10}. -/
theorem selection_line_invariant (board : Board) (player : Color)
    (sel : List Cell) (h : Reaches board player sel) (hlen : 2 ≤ sel.length) :
    IsLineSel sel := by
  revert hlen
  induction h with
  | start c hc =>
    intro hlen
    simp at hlen
  | extend sel c hr hnotin hc hl hline ih =>
    intro hlen
    exact isArith_line hline hlen

/-- C5 witness: the selection `[51, 52]`, reached from `[51]` by an accepted
extension with 52, lies on a line of step 1. -/
theorem selection_line_invariant_witness : IsLineSel [51, 52] :=
  selection_line_invariant [(51, Color.black), (52, Color.black)] .black [51, 52]
    (Reaches.extend [51] 52 (Reaches.start 51 (by decide))
      (by decide) (by decide) (by decide) (by decide))
    (by decide)

/-! ### Valid board keys are preserved (C10) -/

lemma moves_cells_valid {board : Board} {player : Color} {selected : List Cell}
    {m : Move} (hm : m ∈ getPossibleMoves board player selected) :
    ∀ c ∈ m.cells, inCellSet c = true := by
  obtain ⟨dir, _, h⟩ := mem_moves hm
  exact (moveForDir_cells h).2.2

/-- C10: if every key of the board is a valid cell, then for every move
returned by the enumerator, the board produced by `executeMove` also has only
valid cells as keys — simple moves and pushes alike. -/
theorem board_keys_valid (board : Board) (scores : Scores) (player : Color)
    (selected : List Cell) (m : Move)
    (hb : ∀ p ∈ board, inCellSet p.1 = true)
    (hm : m ∈ getPossibleMoves board player selected) :
    ∀ p ∈ (executeMove board scores player selected m).board,
      inCellSet p.1 = true := by
  intro p hp
  by_cases ht : m.type = .push
  · rw [executeMove_push_board board scores player selected m ht] at hp
    rcases mem_foldl_setKey hp with hcells | hp2
    · exact moves_cells_valid hm p.1 hcells
    · exact boardFold_valid player.opp m.dir m.pushed board hb p
        (mem_foldl_delKey hp2)
  · rw [executeMove_move_board board scores player selected m ht] at hp
    rcases mem_foldl_setKey hp with hcells | hp2
    · exact moves_cells_valid hm p.1 hcells
    · exact hb p (mem_foldl_delKey hp2)

/-- C10 witness: after the concrete push of black `[62,63]` against white 64,
the relocated white piece sits at the valid cell 65. -/
theorem board_keys_valid_witness : inCellSet (65 : Cell) = true :=
  board_keys_valid [(62, .black), (63, .black), (64, .white)] ⟨0, 0⟩ .black [62, 63]
    { dir := 1, cells := [63, 64], type := .push, pushed := [64], triggerCell := 63 }
    (by decide) (by decide) (65, .white) (by decide)

/-! ### Push scoring and relocation under `executeMove` (C3, amended) -/

/-- C3 (amended): for every enumerated push move applied with `executeMove`:
if the far cell (one step past the last pushed piece) is off-board, the
mover's score rises by exactly one — only the last pushed piece is ejected —
and the opponent's score is unchanged; if the far cell is on-board, both
scores are unchanged and the opponent color is written at the far cell (the
lead pushed piece advances one step into it). -/
theorem push_score_far (board : Board) (scores : Scores) (player : Color)
    (selected : List Cell) (m : Move)
    (hm : m ∈ getPossibleMoves board player selected) (ht : m.type = .push) :
    (inCellSet (m.pushed.getLastD 0 + m.dir) = false →
      (executeMove board scores player selected m).scores.get player
          = scores.get player + 1 ∧
      (executeMove board scores player selected m).scores.get player.opp
          = scores.get player.opp) ∧
    (inCellSet (m.pushed.getLastD 0 + m.dir) = true →
      (executeMove board scores player selected m).scores = scores ∧
      getKey (executeMove board scores player selected m).board
          (m.pushed.getLastD 0 + m.dir) = some player.opp) := by
  obtain ⟨dir, hdirs, hmf⟩ := mem_moves hm
  obtain ⟨hdir, hcells, hvalid⟩ := moveForDir_cells hmf
  obtain ⟨hlen, ⟨a, b2, t, hsorteq, hdiff⟩, htrig, hpushed, hpos, hlt, hguard⟩ :=
    moveForDir_push hmf ht
  have hsign : 0 < dir ∨ dir < 0 := by
    have hdirs2 : dir = 1 ∨ dir = -1 ∨ dir = 9 ∨ dir = -9 ∨ dir = 10 ∨ dir = -10 := by
      simpa [directions] using hdirs
    omega
  obtain ⟨fin, hfd⟩ :
      ∃ f : Cell, (pushWalk board player dir 62 (m.triggerCell + dir)).2 = f :=
    ⟨_, rfl⟩
  have hwalk : pushWalk board player dir 62 (m.triggerCell + dir)
      = (m.pushed, fin) := by
    rw [hpushed, ← hfd]
  have hne : m.pushed ≠ [] := List.ne_nil_of_length_pos hpos
  have hfar : m.pushed.getLastD 0 + m.dir = fin := by
    have h1 := pushWalk_getLastD 62 (m.triggerCell + dir) m.pushed fin hwalk hne
    rw [hdir]
    exact h1.symm
  rw [hfar]
  have hscores := executeMove_push_scores board scores player selected m ht
  rw [hdir] at hscores
  constructor
  · intro hoff
    have hcount := pushWalk_filter_off 62 (m.triggerCell + dir) m.pushed fin
      hwalk hoff hne
    constructor
    · rw [hscores, scoreFold_get_self player dir m.pushed scores, hcount]
    · rw [hscores,
        scoreFold_get_other player player.opp dir (Color.opp_ne player) m.pushed scores]
  · intro hon
    have hall := pushWalk_targets_on 62 (m.triggerCell + dir) m.pushed fin hwalk hon
    have hnotmem : fin ∉ selected ∧ fin ∉ m.cells := by
      rcases hsign with hd | hd
      · rw [if_pos hd] at htrig
        have hstart := pushWalk_le hd 62 (m.triggerCell + dir) m.pushed fin hwalk
        have hstart1 := hstart.1
        have hstart2 := hstart.2 hne
        constructor
        · intro hmem
          have h1 : fin ≤ m.triggerCell := by
            rw [htrig]
            exact sorted_le_getLastD _ (sortCells_sorted selected) fin
              (mem_sortCells.mpr hmem)
          linarith
        · intro hmem
          rw [hcells] at hmem
          obtain ⟨s, hs, hseq⟩ := List.mem_map.mp hmem
          have hseq2 : s + dir = fin := hseq
          have h1 : s ≤ m.triggerCell := by
            rw [htrig]
            exact sorted_le_getLastD _ (sortCells_sorted selected) s hs
          linarith
      · rw [if_neg (by omega : ¬ 0 < dir)] at htrig
        have hstart := pushWalk_ge hd 62 (m.triggerCell + dir) m.pushed fin hwalk
        have hstart1 := hstart.1
        have hstart2 := hstart.2 hne
        constructor
        · intro hmem
          have h1 : m.triggerCell ≤ fin := by
            rw [htrig]
            exact sorted_headD_le _ (sortCells_sorted selected) fin
              (mem_sortCells.mpr hmem)
          linarith
        · intro hmem
          rw [hcells] at hmem
          obtain ⟨s, hs, hseq⟩ := List.mem_map.mp hmem
          have hseq2 : s + dir = fin := hseq
          have h1 : m.triggerCell ≤ s := by
            rw [htrig]
            exact sorted_headD_le _ (sortCells_sorted selected) s hs
          linarith
    constructor
    · rw [hscores]
      exact scoreFold_id player dir m.pushed scores hall
    · rw [executeMove_push_board board scores player selected m ht, hdir,
        getKey_foldl_setKey m.cells player _ fin hnotmem.2,
        getKey_foldl_delKey selected _ fin hnotmem.1]
      exact boardFold_get_fin 62 (m.triggerCell + dir) m.pushed fin hwalk hne hon board

/-- C3 witness: the push of black `[62,63]` against white 64 with the far
cell 65 on-board leaves the scores unchanged and puts white at 65. -/
theorem push_score_far_witness :
    (executeMove [(62, Color.black), (63, Color.black), (64, Color.white)]
        ⟨0, 0⟩ .black [62, 63]
        { dir := 1, cells := [63, 64], type := .push, pushed := [64],
          triggerCell := 63 }).scores = ⟨0, 0⟩ ∧
    getKey (executeMove [(62, Color.black), (63, Color.black), (64, Color.white)]
        ⟨0, 0⟩ .black [62, 63]
        { dir := 1, cells := [63, 64], type := .push, pushed := [64],
          triggerCell := 63 }).board 65 = some Color.white :=
  (push_score_far [(62, Color.black), (63, Color.black), (64, Color.white)]
      ⟨0, 0⟩ .black [62, 63]
      { dir := 1, cells := [63, 64], type := .push, pushed := [64],
        triggerCell := 63 }
      (by decide) rfl).2 (by decide)

/-- C9 witness: with black at 51 and 53 and selection `[51]`, a click on 53
fails the line test and `handleCellClick` leaves the selection unchanged. -/
theorem invalid_extension_behavior_witness :
    handleCellClick [(51, .black), (53, .black)] .black [51] 53 = [51] :=
  (invalid_extension_behavior [(51, .black), (53, .black)] .black [51] 53).2.2.1
    (by decide) (by decide) (by decide) (by decide)

end Abalone
